import Mathlib

/-!
Verification of the collaboration core of the LiveBoard whiteboard
(`src/lib/collaboration.ts`) against its specification.

The TypeScript data model is embedded shallowly: JavaScript numbers used as
millisecond timestamps and pixel coordinates are modelled as `Int`; the
Euclidean-distance test `sqrt(dx^2 + dy^2) < 50` is modelled as the
equivalent integer comparison `dx^2 + dy^2 < 50^2`; `Array.prototype.sort`
with comparator `(a, b) => a.timestamp - b.timestamp` (a stable sort) is
modelled by `List.insertionSort` on `timestamp ≤ timestamp`, which is stable.
-/

namespace LiveBoard

/-- Model of the `Point` interface from `src/types/whiteboard.ts`. -/
structure Point where
  x : Int
  y : Int
deriving DecidableEq, Repr

/-- Model of the `'draw' | 'erase' | 'clear'` union type of `DrawingAction.type`. -/
inductive ActionType where
  | draw
  | erase
  | clear
deriving DecidableEq, Repr

/-- Model of the `DrawingAction` interface from `src/types/whiteboard.ts`. -/
structure DrawingAction where
  id : String
  type : ActionType
  points : List Point
  color : String
  strokeWidth : Int
  timestamp : Int
  userId : String
deriving DecidableEq, Repr

/-- Model of the `Collaborator` interface from `src/types/whiteboard.ts`. -/
structure Collaborator where
  id : String
  name : String
  color : String
  cursor : Option Point
  isActive : Bool
  lastSeen : Int
deriving DecidableEq, Repr

/-- Model of the `WhiteboardState` interface from `src/types/whiteboard.ts`. -/
structure WhiteboardState where
  id : String
  name : String
  actions : List DrawingAction
  lastModified : Int
  createdBy : String
  collaborators : List Collaborator
deriving DecidableEq, Repr

/-- The comparator `(a, b) => a.timestamp - b.timestamp` used by
`applyAction` and `mergeActions`, as the ordering relation it induces. -/
def tsLe (a b : DrawingAction) : Prop :=
  a.timestamp ≤ b.timestamp

instance : DecidableRel tsLe := fun a b => Int.decLe a.timestamp b.timestamp

instance : IsTotal DrawingAction tsLe := ⟨fun a b => Int.le_total a.timestamp b.timestamp⟩

instance : IsTrans DrawingAction tsLe := ⟨fun _ _ _ h h' => le_trans h h'⟩

/-- Model of `actions.sort((a, b) => a.timestamp - b.timestamp)`:
a stable sort by ascending timestamp. -/
def sortByTimestamp (l : List DrawingAction) : List DrawingAction :=
  l.insertionSort tsLe

/-- Model of `CollaborationManager.hasSpatialConflict`: false when either
action has no points, otherwise true iff some point of `action1` is within
Euclidean distance 50 of some point of `action2` (`sqrt(dx^2+dy^2) < 50`
rendered as `dx^2 + dy^2 < 50^2` over integer coordinates). -/
def hasSpatialConflict (action1 action2 : DrawingAction) : Bool :=
  if action1.points = [] ∨ action2.points = [] then false
  else action1.points.any fun point1 =>
    action2.points.any fun point2 =>
      decide ((point1.x - point2.x) ^ 2 + (point1.y - point2.y) ^ 2 < 50 ^ 2)

/-- Model of `CollaborationManager.findConflicts`: the existing actions whose
timestamp lies within the 5000 ms window of the new action and which
spatially conflict with it, in store order. -/
def findConflicts (newAction : DrawingAction) (actions : List DrawingAction) :
    List DrawingAction :=
  actions.filter fun action =>
    decide ((action.timestamp - newAction.timestamp).natAbs < 5000) &&
      hasSpatialConflict newAction action

/-- One iteration of the loop body of `CollaborationManager.resolveConflicts`.
Each of the four source branches performs the identical assignment
`resolvedAction.timestamp = Math.max(conflict.timestamp + 1, newAction.timestamp)`;
the branch structure is kept as in the source. -/
def resolveStep (newAction resolved conflict : DrawingAction) : DrawingAction :=
  if conflict.type = ActionType.clear ∧ ¬ newAction.type = ActionType.clear then
    { resolved with timestamp := max (conflict.timestamp + 1) newAction.timestamp }
  else if newAction.type = ActionType.erase ∧ conflict.type = ActionType.draw then
    { resolved with timestamp := max (conflict.timestamp + 1) newAction.timestamp }
  else if newAction.type = ActionType.draw ∧ conflict.type = ActionType.erase then
    { resolved with timestamp := max (conflict.timestamp + 1) newAction.timestamp }
  else
    { resolved with timestamp := max (conflict.timestamp + 1) newAction.timestamp }

/-- Model of `CollaborationManager.resolveConflicts`: starts from a copy of
the new action and runs the loop over the conflict list. -/
def resolveConflicts (newAction : DrawingAction) (conflicts : List DrawingAction) :
    DrawingAction :=
  conflicts.foldl (resolveStep newAction) newAction

/-- Model of the result object returned by `CollaborationManager.addAction`;
`resolvedAction` is `none` when the source omits the field. -/
structure AddResult where
  success : Bool
  conflict : Bool
  resolvedAction : Option DrawingAction
deriving DecidableEq, Repr

/-- Model of `CollaborationManager.applyAction`: append the action, set
`lastModified` to its timestamp, and re-sort by timestamp. -/
def applyAction (state : WhiteboardState) (action : DrawingAction) : WhiteboardState :=
  { state with
    actions := sortByTimestamp (state.actions ++ [action])
    lastModified := action.timestamp }

/-- Model of `CollaborationManager.addAction`: detect conflicts against the
current actions; on conflict apply the resolved action and report it,
otherwise apply the action unchanged. -/
def addAction (state : WhiteboardState) (action : DrawingAction) :
    AddResult × WhiteboardState :=
  let conflicts := findConflicts action state.actions
  if 0 < conflicts.length then
    let resolvedAction := resolveConflicts action conflicts
    (⟨true, true, some resolvedAction⟩, applyAction state resolvedAction)
  else
    (⟨true, false, none⟩, applyAction state action)

/-- The list-level computation of `CollaborationManager.optimizeActions`:
partition into clear and non-clear actions; if any clear exists keep the last
clear in store order plus the non-clear actions with strictly greater
timestamp, otherwise keep the non-clear actions (all of them). -/
def optimizeList (actions : List DrawingAction) : List DrawingAction :=
  let clearActions := actions.filter fun action => decide (action.type = ActionType.clear)
  let optimized := actions.filter fun action => decide (¬ action.type = ActionType.clear)
  match clearActions.getLast? with
  | some latestClear =>
    latestClear :: optimized.filter fun action => decide (latestClear.timestamp < action.timestamp)
  | none => optimized

/-- Model of `CollaborationManager.optimizeActions` (state level);
`lastModified` is not touched by the source. -/
def optimizeActions (state : WhiteboardState) : WhiteboardState :=
  { state with actions := optimizeList state.actions }

/-- Model of the JavaScript dedup filter
`allActions.filter((action, index, self) => index === self.findIndex(a => a.id === action.id))`:
an element is kept iff no element before it has the same id. `seen` carries
the ids of the elements already passed. -/
def dedupByIdAux (seen : List String) : List DrawingAction → List DrawingAction
  | [] => []
  | a :: rest =>
    if a.id ∈ seen then dedupByIdAux seen rest
    else a :: dedupByIdAux (a.id :: seen) rest

/-- Deduplication by `id` keeping the first occurrence, as in
`CollaborationManager.mergeActions`. -/
def dedupById (l : List DrawingAction) : List DrawingAction :=
  dedupByIdAux [] l

/-- Model of `CollaborationManager.mergeActions`: concatenate, dedup by id
keeping first occurrences, sort by timestamp, and set `lastModified` to the
current wall-clock time (passed in as `now`, modelling `Date.now()`). -/
def mergeActions (state : WhiteboardState) (incoming : List DrawingAction) (now : Int) :
    WhiteboardState :=
  { state with
    actions := sortByTimestamp (dedupById (state.actions ++ incoming))
    lastModified := now }

/-- Model of the snapshot object returned by
`CollaborationManager.createSnapshot`. -/
structure Snapshot where
  state : WhiteboardState
  timestamp : Int
deriving DecidableEq, Repr

/-- Model of `CollaborationManager.createSnapshot` with `Date.now()` passed
in as `now`. -/
def createSnapshot (state : WhiteboardState) (now : Int) : Snapshot :=
  ⟨state, now⟩

/-- Model of `CollaborationManager.restoreFromSnapshot` at the value level:
the manager's state is replaced by (a copy of) the snapshot's state. -/
def restoreFromSnapshot (_current : WhiteboardState) (snapshot : Snapshot) :
    WhiteboardState :=
  snapshot.state

/-!
Helper lemmas about the embedded operations.
-/

/-- All four branches of the `resolveConflicts` loop body perform the same
assignment. -/
theorem resolveStep_eq (newAction resolved conflict : DrawingAction) :
    resolveStep newAction resolved conflict =
      { resolved with timestamp := max (conflict.timestamp + 1) newAction.timestamp } := by
  unfold resolveStep
  split
  · rfl
  · split
    · rfl
    · split
      · rfl
      · rfl

/-- The `resolveConflicts` loop overwrites the timestamp on every iteration
with a value depending only on the current conflict and the original
candidate, so only the last conflict in the list matters. -/
theorem foldl_resolveStep (newAction : DrawingAction) (conflicts : List DrawingAction) :
    ∀ acc : DrawingAction,
      conflicts.foldl (resolveStep newAction) acc =
        match conflicts.getLast? with
        | none => acc
        | some e => { acc with timestamp := max (e.timestamp + 1) newAction.timestamp } := by
  induction conflicts with
  | nil => intro acc; rfl
  | cons c cs ih =>
    intro acc
    cases cs with
    | nil => simp [List.foldl, resolveStep_eq]
    | cons c2 cs2 =>
      rw [List.foldl_cons, ih]
      cases h : (c2 :: cs2).getLast? with
      | none => simp at h
      | some e => simp [List.getLast?_cons_cons, h, resolveStep_eq]

/-- Closed form of `resolveConflicts`: the candidate with its timestamp set
from the last conflict of the list (or unchanged when there is none). -/
theorem resolveConflicts_eq (newAction : DrawingAction) (conflicts : List DrawingAction) :
    resolveConflicts newAction conflicts =
      match conflicts.getLast? with
      | none => newAction
      | some e => { newAction with timestamp := max (e.timestamp + 1) newAction.timestamp } :=
  foldl_resolveStep newAction conflicts newAction

/-- In a timestamp-sorted list, every member's timestamp is bounded by the
last element's timestamp. -/
theorem sorted_le_getLast : ∀ (l : List DrawingAction), List.Sorted tsLe l →
    ∀ a ∈ l, ∀ e, l.getLast? = some e → a.timestamp ≤ e.timestamp := by
  intro l
  induction l with
  | nil => intro _ a ha; exact absurd ha (List.not_mem_nil a)
  | cons b l ih =>
    intro hs a ha e he
    rcases List.sorted_cons.mp hs with ⟨hb, hl⟩
    cases l with
    | nil =>
      simp at he
      rcases List.mem_singleton.mp ha with rfl
      exact he ▸ le_refl _
    | cons b2 l2 =>
      rw [List.getLast?_cons_cons] at he
      rcases List.mem_cons.mp ha with rfl | ha2
      · exact le_trans (hb e (List.mem_of_getLast?_eq_some he)) (le_refl _)
      · exact ih hl a ha2 e he

/-- Folding `max (acc, e.timestamp + 1)` over a timestamp-sorted list reduces
to a single `max` against the last element. -/
theorem foldl_max_sorted : ∀ (cs : List DrawingAction), List.Sorted tsLe cs →
    ∀ acc : Int,
      cs.foldl (fun m e => max m (e.timestamp + 1)) acc =
        match cs.getLast? with
        | none => acc
        | some e => max acc (e.timestamp + 1) := by
  intro cs
  induction cs with
  | nil => intro _ acc; rfl
  | cons c cs ih =>
    intro hs acc
    rcases List.sorted_cons.mp hs with ⟨hc, hcs⟩
    rw [List.foldl_cons, ih hcs]
    cases cs with
    | nil => rfl
    | cons c2 cs2 =>
      cases h : (c2 :: cs2).getLast? with
      | none => simp at h
      | some e =>
        have hce : c.timestamp + 1 ≤ e.timestamp + 1 := by
          have := hc e (List.mem_of_getLast?_eq_some h)
          exact Int.add_le_add_right this 1
        simp only [List.getLast?_cons_cons, h]
        rw [max_assoc, max_eq_right hce]

/-- Filtering preserves sortedness. -/
theorem sorted_filter (p : DrawingAction → Bool) {l : List DrawingAction}
    (h : List.Sorted tsLe l) : List.Sorted tsLe (l.filter p) :=
  List.Pairwise.sublist (List.filter_sublist l) h

/-- The conflict list inherits sortedness from the store's action list. -/
theorem sorted_findConflicts (c : DrawingAction) {l : List DrawingAction}
    (h : List.Sorted tsLe l) : List.Sorted tsLe (findConflicts c l) :=
  sorted_filter _ h

/-- The result of `sortByTimestamp` is sorted. -/
theorem sorted_sortByTimestamp (l : List DrawingAction) :
    List.Sorted tsLe (sortByTimestamp l) :=
  List.sorted_insertionSort tsLe l

/-- The result of `sortByTimestamp` is a permutation of the input. -/
theorem perm_sortByTimestamp (l : List DrawingAction) :
    (sortByTimestamp l).Perm l :=
  List.perm_insertionSort tsLe l

/-- A candidate with no points spatially conflicts with nothing. -/
theorem hasSpatialConflict_left_empty {c a : DrawingAction} (h : c.points = []) :
    hasSpatialConflict c a = false := by
  simp [hasSpatialConflict, h]

/-- An existing action with no points spatially conflicts with nothing. -/
theorem hasSpatialConflict_right_empty {c a : DrawingAction} (h : a.points = []) :
    hasSpatialConflict c a = false := by
  simp [hasSpatialConflict, h]

/-- A candidate with no points has an empty conflict list. -/
theorem findConflicts_left_empty (state : List DrawingAction) {c : DrawingAction}
    (h : c.points = []) : findConflicts c state = [] := by
  apply List.filter_eq_nil_iff.mpr
  intro a _
  simp [hasSpatialConflict_left_empty h]

/-- Elements kept by the dedup pass come from the input and have ids outside
`seen`. -/
theorem dedupByIdAux_mem : ∀ (seen : List String) (l : List DrawingAction) (x : DrawingAction),
    x ∈ dedupByIdAux seen l → x ∈ l ∧ x.id ∉ seen := by
  intro seen l
  induction l generalizing seen with
  | nil => intro x hx; exact absurd hx (List.not_mem_nil x)
  | cons a rest ih =>
    intro x hx
    by_cases ha : a.id ∈ seen
    · rw [dedupByIdAux, if_pos ha] at hx
      rcases ih seen x hx with ⟨h1, h2⟩
      exact ⟨List.mem_cons_of_mem a h1, h2⟩
    · rw [dedupByIdAux, if_neg ha] at hx
      rcases List.mem_cons.mp hx with rfl | hx2
      · exact ⟨List.mem_cons_self x rest, ha⟩
      · rcases ih (a.id :: seen) x hx2 with ⟨h1, h2⟩
        exact ⟨List.mem_cons_of_mem a h1,
          fun hmem => h2 (List.mem_cons_of_mem a.id hmem)⟩

/-- Every element kept by the dedup pass is the first element of the input
carrying its id. -/
theorem dedupByIdAux_find? : ∀ (seen : List String) (l : List DrawingAction) (x : DrawingAction),
    x ∈ dedupByIdAux seen l →
      l.find? (fun a => decide (a.id = x.id)) = some x := by
  intro seen l
  induction l generalizing seen with
  | nil => intro x hx; exact absurd hx (List.not_mem_nil x)
  | cons a rest ih =>
    intro x hx
    by_cases ha : a.id ∈ seen
    · rw [dedupByIdAux, if_pos ha] at hx
      have hne : ¬ a.id = x.id := by
        intro he
        exact (dedupByIdAux_mem seen rest x hx).2 (he ▸ ha)
      rw [List.find?_cons_of_neg rest (by simpa using hne)]
      exact ih seen x hx
    · rw [dedupByIdAux, if_neg ha] at hx
      rcases List.mem_cons.mp hx with rfl | hx2
      · exact List.find?_cons_of_pos rest (by simp)
      · have hne : ¬ a.id = x.id := by
          intro he
          exact (dedupByIdAux_mem (a.id :: seen) rest x hx2).2
            (he ▸ List.mem_cons_self a.id seen)
        rw [List.find?_cons_of_neg rest (by simpa using hne)]
        exact ih (a.id :: seen) x hx2

/-- The dedup pass emits pairwise-distinct ids. -/
theorem dedupByIdAux_nodup : ∀ (seen : List String) (l : List DrawingAction),
    ((dedupByIdAux seen l).map DrawingAction.id).Nodup := by
  intro seen l
  induction l generalizing seen with
  | nil => exact List.nodup_nil
  | cons a rest ih =>
    by_cases ha : a.id ∈ seen
    · rw [dedupByIdAux, if_pos ha]
      exact ih seen
    · rw [dedupByIdAux, if_neg ha]
      refine List.nodup_cons.mpr ⟨?_, ih (a.id :: seen)⟩
      intro hmem
      rcases List.mem_map.mp hmem with ⟨x, hx, hid⟩
      exact (dedupByIdAux_mem (a.id :: seen) rest x hx).2
        (hid ▸ List.mem_cons_self a.id seen)

/-- Every input id either was already seen or survives into the dedup
output. -/
theorem dedupByIdAux_covers : ∀ (seen : List String) (l : List DrawingAction)
    (i : DrawingAction), i ∈ l →
      i.id ∈ seen ∨ ∃ x ∈ dedupByIdAux seen l, x.id = i.id := by
  intro seen l
  induction l generalizing seen with
  | nil => intro i hi; exact absurd hi (List.not_mem_nil i)
  | cons a rest ih =>
    intro i hi
    by_cases ha : a.id ∈ seen
    · rw [dedupByIdAux, if_pos ha]
      rcases List.mem_cons.mp hi with rfl | hi2
      · exact Or.inl ha
      · exact ih seen i hi2
    · rw [dedupByIdAux, if_neg ha]
      rcases List.mem_cons.mp hi with rfl | hi2
      · exact Or.inr ⟨i, List.mem_cons_self i _, rfl⟩
      · rcases ih (a.id :: seen) i hi2 with hseen | ⟨x, hx, hxid⟩
        · rcases List.mem_cons.mp hseen with heq | hseen2
          · exact Or.inr ⟨a, List.mem_cons_self a _, heq.symm⟩
          · exact Or.inl hseen2
        · exact Or.inr ⟨x, List.mem_cons_of_mem a hx, hxid⟩

/-!
Reference-level model of the manager. JavaScript object spread `{...obj}`
copies field values, and an array-valued field is a reference, so the copy
returned by `getState` shares its `actions` array with the store. We model
this with an explicit heap of arrays: a state record holds a reference
(`actionsRef`) into the heap; `push`/`sort` mutate the heap cell in place,
while `mergeActions`/`optimizeActions` assign a freshly allocated array to
the field. Fields of `WhiteboardState` that play no role in the aliasing
claims (`id`, `name`, `createdBy`, `collaborators`) are elided.
-/

/-- A `WhiteboardState` object as the heap model sees it: the `actions`
field is a reference into the heap. -/
structure HState where
  actionsRef : Nat
  lastModified : Int
deriving DecidableEq, Repr

/-- The manager together with the heap of arrays its states point into. -/
structure HManager where
  heap : List (List DrawingAction)
  state : HState
deriving DecidableEq, Repr

/-- Dereference an actions array; out-of-range references (which a real
execution never produces) read as empty. -/
def heapGet (heap : List (List DrawingAction)) (r : Nat) : List DrawingAction :=
  heap.getD r []

/-- Model of `getState`: the object spread `{...this.whiteboardState}`
copies the fields, including the `actions` reference. -/
def hGetState (m : HManager) : HState :=
  m.state

/-- Model of `applyAction` at the reference level: `push` and `sort` mutate
the shared array in place (the heap cell is overwritten), and
`lastModified` is set on the store's state object. -/
def hApplyAction (m : HManager) (action : DrawingAction) : HManager :=
  { heap := m.heap.set m.state.actionsRef
      (sortByTimestamp (heapGet m.heap m.state.actionsRef ++ [action]))
    state := { m.state with lastModified := action.timestamp } }

/-- Model of `addAction` at the reference level. -/
def hAddAction (m : HManager) (action : DrawingAction) : AddResult × HManager :=
  let conflicts := findConflicts action (heapGet m.heap m.state.actionsRef)
  if 0 < conflicts.length then
    let resolvedAction := resolveConflicts action conflicts
    (⟨true, true, some resolvedAction⟩, hApplyAction m resolvedAction)
  else
    (⟨true, false, none⟩, hApplyAction m action)

/-- Model of `mergeActions` at the reference level: the merged result is a
freshly allocated array and the `actions` field is re-bound to it. -/
def hMergeActions (m : HManager) (incoming : List DrawingAction) (now : Int) : HManager :=
  { heap := m.heap ++
      [sortByTimestamp (dedupById (heapGet m.heap m.state.actionsRef ++ incoming))]
    state := { actionsRef := m.heap.length, lastModified := now } }

/-- Model of `optimizeActions` at the reference level: the optimized result
is a freshly allocated array and the `actions` field is re-bound to it. -/
def hOptimizeActions (m : HManager) : HManager :=
  { heap := m.heap ++ [optimizeList (heapGet m.heap m.state.actionsRef)]
    state := { m.state with actionsRef := m.heap.length } }

/-- The snapshot object of `createSnapshot` at the reference level: the
spread `{...this.whiteboardState}` shares the `actions` reference. -/
structure HSnapshot where
  state : HState
  timestamp : Int
deriving DecidableEq, Repr

/-- Model of `createSnapshot` with `Date.now()` passed in as `now`. -/
def hCreateSnapshot (m : HManager) (now : Int) : HSnapshot :=
  ⟨m.state, now⟩

/-- Model of `restoreFromSnapshot`: `{...snapshot.state}` copies the fields
of the snapshot's state, including its `actions` reference. -/
def hRestoreFromSnapshot (m : HManager) (snapshot : HSnapshot) : HManager :=
  { m with state := snapshot.state }

/-- Overwriting a heap cell is observable through any copy of its
reference. -/
theorem heapGet_set_self : ∀ (heap : List (List DrawingAction)) (r : Nat)
    (v : List DrawingAction), r < heap.length → heapGet (heap.set r v) r = v := by
  intro heap
  induction heap with
  | nil => intro r v h; exact absurd h (Nat.not_lt_zero r)
  | cons c heap ih =>
    intro r v h
    cases r with
    | zero => rfl
    | succ r => exact ih r v (Nat.lt_of_succ_lt_succ h)

/-- Allocating a new cell at the end of the heap leaves existing cells
unchanged. -/
theorem heapGet_append : ∀ (heap : List (List DrawingAction)) (r : Nat)
    (v : List DrawingAction), r < heap.length → heapGet (heap ++ [v]) r = heapGet heap r := by
  intro heap
  induction heap with
  | nil => intro r v h; exact absurd h (Nat.not_lt_zero r)
  | cons c heap ih =>
    intro r v h
    cases r with
    | zero => rfl
    | succ r => exact ih r v (Nat.lt_of_succ_lt_succ h)

/-- Unfolding of `addAction` (the `let` and the branch made explicit). -/
theorem addAction_eq (state : WhiteboardState) (c : DrawingAction) :
    addAction state c =
      if 0 < (findConflicts c state.actions).length then
        (⟨true, true, some (resolveConflicts c (findConflicts c state.actions))⟩,
          applyAction state (resolveConflicts c (findConflicts c state.actions)))
      else
        (⟨true, false, none⟩, applyAction state c) :=
  rfl

/-!
Claim theorems and their concrete inputs.
-/

/-- Shared concrete empty whiteboard. -/
def emptyBoard : WhiteboardState :=
  ⟨"board", "Board", [], 0, "owner", []⟩

/-- Concrete existing action for the C1 witness: a draw at t = 1000. -/
def wC1a : DrawingAction :=
  ⟨"wC1a", ActionType.draw, [⟨0, 0⟩], "#000000", 2, 1000, "user1"⟩

/-- Concrete existing action for the C1 witness: a draw at t = 1200. -/
def wC1b : DrawingAction :=
  ⟨"wC1b", ActionType.draw, [⟨5, 5⟩], "#000000", 2, 1200, "user2"⟩

/-- Concrete store for the C1 witness, sorted by timestamp. -/
def wC1State : WhiteboardState :=
  ⟨"board", "Board", [wC1a, wC1b], 0, "owner", []⟩

/-- Concrete candidate for the C1 witness: a draw at t = 900 spatially and
temporally conflicting with both existing actions. -/
def wC1Cand : DrawingAction :=
  ⟨"wC1c", ActionType.draw, [⟨3, 3⟩], "#ff0000", 2, 900, "user3"⟩

/-- C1: against a store whose action list is sorted by timestamp (the
invariant every mutator maintains), the operation stored by `addAction` is
the candidate with its timestamp replaced by the maximum of the candidate's
own timestamp and `e.timestamp + 1` over all conflicting existing
operations `e`; with no conflict the candidate is stored unchanged, and in
either case the stored operation is what is appended to the action list. -/
theorem addAction_resolved_timestamp (state : WhiteboardState) (c : DrawingAction)
    (hs : List.Sorted tsLe state.actions) :
    ((addAction state c).1.resolvedAction.getD c).timestamp =
      (findConflicts c state.actions).foldl
        (fun m e => max m (e.timestamp + 1)) c.timestamp
    ∧ (findConflicts c state.actions = [] →
        (addAction state c).1.resolvedAction.getD c = c)
    ∧ (addAction state c).2.actions =
        sortByTimestamp (state.actions ++ [(addAction state c).1.resolvedAction.getD c]) := by
  cases h : findConflicts c state.actions with
  | nil =>
    rw [addAction_eq]
    simp [h, applyAction]
  | cons e es =>
    have hpos : 0 < (findConflicts c state.actions).length := by
      rw [h]; exact Nat.succ_pos _
    have hsc : List.Sorted tsLe (e :: es) := h ▸ sorted_findConflicts c hs
    rw [addAction_eq, if_pos hpos, h]
    cases h2 : (e :: es).getLast? with
    | none => simp at h2
    | some el =>
      refine ⟨?_, by simp, by simp [applyAction]⟩
      rw [foldl_max_sorted (e :: es) hsc c.timestamp]
      simp only [h2, Option.getD_some, resolveConflicts_eq]
      exact max_comm _ _

/-- Witness for C1 at a concrete input: the candidate at t = 900 conflicts
with existing actions at t = 1000 and t = 1200 and is stored at
t = max(900, 1001, 1201) = 1201. -/
theorem addAction_resolved_timestamp_witness :
    List.Sorted tsLe wC1State.actions
    ∧ ((addAction wC1State wC1Cand).1.resolvedAction.getD wC1Cand).timestamp = 1201 :=
  ⟨by decide,
    ((addAction_resolved_timestamp wC1State wC1Cand (by decide)).1).trans (by decide)⟩

/-- Concrete existing action for the C3 witness: a draw at t = 1000. -/
def wC3a : DrawingAction :=
  ⟨"wC3a", ActionType.draw, [⟨10, 10⟩], "#000000", 2, 1000, "user1"⟩

/-- Concrete store for the C3 witness. -/
def wC3State : WhiteboardState :=
  ⟨"board", "Board", [wC3a], 0, "owner", []⟩

/-- Concrete candidate for the C3 witness: an erase at t = 900 conflicting
with the existing draw. -/
def wC3Cand : DrawingAction :=
  ⟨"wC3b", ActionType.erase, [⟨12, 12⟩], "#ffffff", 2, 900, "user2"⟩

/-- C3: against a sorted store, if an existing operation `a` is detected as
conflicting with the submitted operation `b` (timestamps within 5000 ms and
some pair of points within distance 50), then the timestamp stored for `b`
is strictly greater than `a`'s stored timestamp. -/
theorem addAction_conflict_ordering (state : WhiteboardState) (c a : DrawingAction)
    (hs : List.Sorted tsLe state.actions)
    (ha : a ∈ findConflicts c state.actions) :
    a.timestamp < ((addAction state c).1.resolvedAction.getD c).timestamp := by
  cases h : findConflicts c state.actions with
  | nil => rw [h] at ha; exact absurd ha (List.not_mem_nil a)
  | cons e es =>
    have hpos : 0 < (findConflicts c state.actions).length := by
      rw [h]; exact Nat.succ_pos _
    have hsc : List.Sorted tsLe (e :: es) := h ▸ sorted_findConflicts c hs
    rw [addAction_eq, if_pos hpos, h]
    cases h2 : (e :: es).getLast? with
    | none => simp at h2
    | some el =>
      have hale : a.timestamp ≤ el.timestamp :=
        sorted_le_getLast (e :: es) hsc a (h ▸ ha) el h2
      simp only [Option.getD_some, resolveConflicts_eq, h2]
      calc a.timestamp < el.timestamp + 1 := by omega
        _ ≤ max (el.timestamp + 1) c.timestamp := le_max_left _ _

/-- Witness for C3 at a concrete input: the erase at t = 900 conflicts with
the draw at t = 1000 and is stored at t = 1001 > 1000. -/
theorem addAction_conflict_ordering_witness :
    (List.Sorted tsLe wC3State.actions ∧ wC3a ∈ findConflicts wC3Cand wC3State.actions)
    ∧ wC3a.timestamp < ((addAction wC3State wC3Cand).1.resolvedAction.getD wC3Cand).timestamp :=
  ⟨⟨by decide, by decide⟩,
    addAction_conflict_ordering wC3State wC3Cand wC3a (by decide) (by decide)⟩

/-- Concrete existing clear for C2: empty point set, t = 1000. -/
def wC2Clear : DrawingAction :=
  ⟨"wC2clear", ActionType.clear, [], "#ffffff", 0, 1000, "user1"⟩

/-- Concrete store for C2 holding only the clear. -/
def wC2State : WhiteboardState :=
  ⟨"board", "Board", [wC2Clear], 0, "owner", []⟩

/-- Concrete non-Clear candidate for C2: a draw at t = 500, within 5000 ms
of the clear. -/
def wC2Cand : DrawingAction :=
  ⟨"wC2draw", ActionType.draw, [⟨0, 0⟩], "#000000", 1, 500, "user2"⟩

/-- Counterexample to C2: the store holds a Clear at t = 1000 with an empty
point set and the candidate is a draw at t = 500, so
|e.timestamp − candidate.timestamp| = 500 < 5000; the claim says the
resolved timestamp becomes max(1000 + 1, 500) = 1001, but `addAction`
reports no conflict and stores the candidate at its original t = 500,
because a Clear's empty point set makes `hasSpatialConflict` false and the
Clear never enters the conflict list. -/
theorem clear_conflict_counterexample :
    (addAction wC2State wC2Cand).1.conflict = false
    ∧ ((addAction wC2State wC2Cand).1.resolvedAction.getD wC2Cand).timestamp = 500
    ∧ ((addAction wC2State wC2Cand).1.resolvedAction.getD wC2Cand).timestamp
        ≠ max ((1000 : Int) + 1) 500 := by
  decide

/-- C2 as amended: an existing Clear carries an empty point set, so it never
appears among a candidate's detected conflicts — whenever every clear-typed
operation in the store has empty points, no member of the candidate's
conflict list is clear-typed, and hence no Clear ever causes a timestamp
adjustment of any candidate. -/
theorem clear_never_conflicts (actions : List DrawingAction) (c : DrawingAction)
    (h : ∀ e ∈ actions, e.type = ActionType.clear → e.points = []) :
    ∀ e ∈ findConflicts c actions, ¬ e.type = ActionType.clear := by
  intro e he hclear
  have hmem := List.mem_filter.mp he
  have hempty : e.points = [] := h e hmem.1 hclear
  have hfalse : hasSpatialConflict c e = false := hasSpatialConflict_right_empty hempty
  have := hmem.2
  rw [hfalse] at this
  simp at this

/-- Witness for the amended C2 at a concrete input: the store holds a single
empty-point Clear, and the candidate's conflict list contains no Clear. -/
theorem clear_never_conflicts_witness :
    (∀ e ∈ [wC2Clear], e.type = ActionType.clear → e.points = [])
    ∧ (∀ e ∈ findConflicts wC2Cand [wC2Clear], ¬ e.type = ActionType.clear) :=
  ⟨by decide, clear_never_conflicts [wC2Clear] wC2Cand (by decide)⟩

/-- Concrete draw at t = 1000 for the C4 example. -/
def wC4Draw1 : DrawingAction :=
  ⟨"wC4a", ActionType.draw, [⟨10, 10⟩], "#000000", 2, 1000, "user1"⟩

/-- Concrete clear at t = 2000 for the C4 example. -/
def wC4Clear : DrawingAction :=
  ⟨"wC4c", ActionType.clear, [], "#ffffff", 0, 2000, "user1"⟩

/-- Concrete draw at t = 3000 for the C4 example. -/
def wC4Draw3 : DrawingAction :=
  ⟨"wC4b", ActionType.draw, [⟨20, 20⟩], "#000000", 2, 3000, "user1"⟩

/-- Concrete store for the C4 example: [draw@1000, clear@2000, draw@3000]. -/
def wC4State : WhiteboardState :=
  ⟨"board", "Board", [wC4Draw1, wC4Clear, wC4Draw3], 0, "owner", []⟩

/-- C4: on a sorted store containing at least one Clear, `optimizeActions`
replaces the action list with a maximal-timestamp Clear followed by exactly
the non-Clear actions with strictly greater timestamp; with no Clear the
list is unchanged; and the concrete example [draw@1000, clear@2000,
draw@3000] optimizes to [clear@2000, draw@3000] idempotently. -/
theorem optimizeActions_spec :
    (∀ state : WhiteboardState, List.Sorted tsLe state.actions →
      ∀ c0 ∈ state.actions, c0.type = ActionType.clear →
        ∃ lc ∈ state.actions, lc.type = ActionType.clear
          ∧ (∀ e ∈ state.actions, e.type = ActionType.clear → e.timestamp ≤ lc.timestamp)
          ∧ (optimizeActions state).actions =
              lc :: state.actions.filter
                (fun a => decide (lc.timestamp < a.timestamp ∧ ¬ a.type = ActionType.clear)))
    ∧ (∀ state : WhiteboardState, (∀ e ∈ state.actions, ¬ e.type = ActionType.clear) →
        (optimizeActions state).actions = state.actions)
    ∧ ((optimizeActions wC4State).actions = [wC4Clear, wC4Draw3]
        ∧ (optimizeActions (optimizeActions wC4State)).actions = (optimizeActions wC4State).actions) := by
  refine ⟨?_, ?_, by decide, by decide⟩
  · intro state hs c0 hc0 hc0t
    have hc0f : c0 ∈ state.actions.filter (fun a => decide (a.type = ActionType.clear)) :=
      List.mem_filter.mpr ⟨hc0, by simp [hc0t]⟩
    cases h : (state.actions.filter (fun a => decide (a.type = ActionType.clear))).getLast? with
    | none =>
      rw [List.getLast?_eq_none_iff] at h
      rw [h] at hc0f
      exact absurd hc0f (List.not_mem_nil c0)
    | some lc =>
      have hlcm := List.mem_of_getLast?_eq_some h
      have hlc := List.mem_filter.mp hlcm
      refine ⟨lc, hlc.1, by simpa using hlc.2, ?_, ?_⟩
      · intro e he het
        exact sorted_le_getLast _ (sorted_filter _ hs) e
          (List.mem_filter.mpr ⟨he, by simp [het]⟩) lc h
      · show optimizeList state.actions = _
        simp only [optimizeList]
        rw [h]
        simp only [List.filter_filter]
        congr 1
        apply List.filter_congr
        intro a _
        simp [Bool.decide_and]
  · intro state hnc
    show optimizeList state.actions = state.actions
    simp only [optimizeList]
    have hcl : state.actions.filter (fun a => decide (a.type = ActionType.clear)) = [] :=
      List.filter_eq_nil_iff.mpr (fun a ha => by simp [hnc a ha])
    rw [hcl]
    simp only [List.getLast?]
    exact List.filter_eq_self.mpr (fun a ha => by simp [hnc a ha])

/-- Witness for C4 at a concrete input: the sorted example store contains
the clear at t = 2000, which is the maximal clear kept by `optimizeActions`. -/
theorem optimizeActions_spec_witness :
    (List.Sorted tsLe wC4State.actions
      ∧ wC4Clear ∈ wC4State.actions ∧ wC4Clear.type = ActionType.clear)
    ∧ ∃ lc ∈ wC4State.actions, lc.type = ActionType.clear
        ∧ (∀ e ∈ wC4State.actions, e.type = ActionType.clear → e.timestamp ≤ lc.timestamp)
        ∧ (optimizeActions wC4State).actions =
            lc :: wC4State.actions.filter
              (fun a => decide (lc.timestamp < a.timestamp ∧ ¬ a.type = ActionType.clear)) :=
  ⟨⟨by decide, by decide, by decide⟩,
    optimizeActions_spec.1 wC4State (by decide) wC4Clear (by decide) (by decide)⟩

/-- Concrete operation for the C5 dedup example. -/
def wC5a : DrawingAction :=
  ⟨"wC5a", ActionType.draw, [⟨10, 10⟩], "#000000", 2, 1000, "user1"⟩

/-- C5: `mergeActions` yields an action list that is sorted ascending by
timestamp, in which every stored operation is the first occurrence of its id
in the concatenation current-then-incoming (so the store's copy wins and no
operation is altered — conflict resolution is not run), ids are pairwise
distinct, no input id is lost, and merging `[a, a]` into an empty document
yields exactly `[a]`. -/
theorem mergeActions_spec :
    (∀ (state : WhiteboardState) (inc : List DrawingAction) (now : Int),
      List.Sorted tsLe (mergeActions state inc now).actions)
    ∧ (∀ (state : WhiteboardState) (inc : List DrawingAction) (now : Int)
        (x : DrawingAction), x ∈ (mergeActions state inc now).actions →
          (state.actions ++ inc).find? (fun a => decide (a.id = x.id)) = some x)
    ∧ (∀ (state : WhiteboardState) (inc : List DrawingAction) (now : Int),
        (((mergeActions state inc now).actions).map DrawingAction.id).Nodup)
    ∧ (∀ (state : WhiteboardState) (inc : List DrawingAction) (now : Int)
        (i : DrawingAction), i ∈ state.actions ++ inc →
          ∃ x ∈ (mergeActions state inc now).actions, x.id = i.id)
    ∧ (mergeActions emptyBoard [wC5a, wC5a] 99).actions = [wC5a] := by
  refine ⟨?_, ?_, ?_, ?_, by decide⟩
  · intro state inc now
    exact sorted_sortByTimestamp _
  · intro state inc now x hx
    have hxd : x ∈ dedupById (state.actions ++ inc) :=
      (perm_sortByTimestamp _).subset hx
    exact dedupByIdAux_find? [] (state.actions ++ inc) x hxd
  · intro state inc now
    have hperm : ((mergeActions state inc now).actions.map DrawingAction.id).Perm
        ((dedupById (state.actions ++ inc)).map DrawingAction.id) :=
      (perm_sortByTimestamp _).map DrawingAction.id
    exact hperm.nodup_iff.mpr (dedupByIdAux_nodup [] (state.actions ++ inc))
  · intro state inc now i hi
    rcases dedupByIdAux_covers [] (state.actions ++ inc) i hi with hseen | ⟨x, hx, hxid⟩
    · exact absurd hseen (List.not_mem_nil i.id)
    · exact ⟨x, (perm_sortByTimestamp _).mem_iff.mpr hx, hxid⟩

/-- Witness for C5 at a concrete input: merging `[wC5a]` into a store that
already holds a different copy of the id keeps the store's first
occurrence. -/
theorem mergeActions_spec_witness :
    wC5a ∈ (mergeActions emptyBoard [wC5a, wC5a] 99).actions
    ∧ (emptyBoard.actions ++ [wC5a, wC5a]).find? (fun a => decide (a.id = wC5a.id))
        = some wC5a :=
  ⟨by decide, mergeActions_spec.2.1 emptyBoard [wC5a, wC5a] 99 wC5a (by decide)⟩

/-- C6 counterexample pieces: a draw at t = 5000 near the origin. -/
def wC6Late : DrawingAction :=
  ⟨"wC6a", ActionType.draw, [⟨0, 0⟩], "#000000", 2, 5000, "user1"⟩

/-- C6 counterexample pieces: a non-conflicting draw at t = 1000 far away. -/
def wC6Early : DrawingAction :=
  ⟨"wC6b", ActionType.draw, [⟨5000, 5000⟩], "#000000", 2, 1000, "user2"⟩

/-- Counterexample to C6: appending a draw at t = 5000 and then a spatially
distant (hence non-conflicting) draw at t = 1000 leaves
`lastModified = 1000`, strictly below the timestamp 5000 of the first
appended operation, which is still in the document. -/
theorem lastModified_counterexample :
    (addAction (addAction emptyBoard wC6Late).2 wC6Early).2.lastModified
        < wC6Late.timestamp
    ∧ wC6Late ∈ (addAction (addAction emptyBoard wC6Late).2 wC6Early).2.actions := by
  decide

/-- C6 as amended: after `addAction` returns, `lastModified` equals the
resolved timestamp of the operation just appended (so it is ≥ that
operation's stored timestamp but not necessarily ≥ earlier operations'
timestamps); `mergeActions` sets `lastModified` to the current wall-clock
time, and `optimizeActions` leaves it unchanged. -/
theorem lastModified_spec (state : WhiteboardState) (a : DrawingAction)
    (inc : List DrawingAction) (now : Int) :
    (addAction state a).2.lastModified
        = ((addAction state a).1.resolvedAction.getD a).timestamp
    ∧ (mergeActions state inc now).lastModified = now
    ∧ (optimizeActions state).lastModified = state.lastModified := by
  refine ⟨?_, rfl, rfl⟩
  rw [addAction_eq]
  split
  · rfl
  · rfl

/-- Compaction preserves sortedness of the action list. -/
theorem sorted_optimizeList {l : List DrawingAction} (h : List.Sorted tsLe l) :
    List.Sorted tsLe (optimizeList l) := by
  simp only [optimizeList]
  cases hg : (l.filter fun a => decide (a.type = ActionType.clear)).getLast? with
  | none =>
    simp only [hg]
    exact sorted_filter _ h
  | some lc =>
    simp only [hg]
    refine List.sorted_cons.mpr ⟨?_, sorted_filter _ (sorted_filter _ h)⟩
    intro b hb
    have hlt := (List.mem_filter.mp hb).2
    simp only [decide_eq_true_eq] at hlt
    exact le_of_lt hlt

/-- Concrete action for the C7 witness. -/
def wC7a : DrawingAction :=
  ⟨"wC7a", ActionType.draw, [⟨10, 10⟩], "#000000", 2, 1000, "user1"⟩

/-- Concrete store for the C7 witness. -/
def wC7State : WhiteboardState :=
  ⟨"board", "Board", [wC7a], 0, "owner", []⟩

/-- C7: every mutating call leaves the action list sorted ascending by
timestamp — `addAction` and `mergeActions` re-sort unconditionally, and
`optimizeActions` and `restoreFromSnapshot` preserve sortedness of a sorted
input. -/
theorem sorted_invariant_spec :
    (∀ (state : WhiteboardState) (a : DrawingAction),
      List.Sorted tsLe (addAction state a).2.actions)
    ∧ (∀ (state : WhiteboardState) (inc : List DrawingAction) (now : Int),
        List.Sorted tsLe (mergeActions state inc now).actions)
    ∧ (∀ state : WhiteboardState, List.Sorted tsLe state.actions →
        List.Sorted tsLe (optimizeActions state).actions)
    ∧ (∀ (state : WhiteboardState) (snap : Snapshot),
        List.Sorted tsLe snap.state.actions →
        List.Sorted tsLe (restoreFromSnapshot state snap).actions) := by
  refine ⟨?_, ?_, ?_, ?_⟩
  · intro state a
    rw [addAction_eq]
    split
    · exact sorted_sortByTimestamp _
    · exact sorted_sortByTimestamp _
  · intro state inc now
    exact sorted_sortByTimestamp _
  · intro state h
    exact sorted_optimizeList h
  · intro state snap h
    exact h

/-- Witness for C7 at a concrete input: optimizing a concrete sorted store
yields a sorted store. -/
theorem sorted_invariant_spec_witness :
    List.Sorted tsLe wC7State.actions
    ∧ List.Sorted tsLe (optimizeActions wC7State).actions :=
  ⟨by decide, sorted_invariant_spec.2.2.1 wC7State (by decide)⟩

/-- Concrete action for the C8 counterexample. -/
def wC8a : DrawingAction :=
  ⟨"wC8a", ActionType.draw, [⟨10, 10⟩], "#000000", 2, 1000, "user1"⟩

/-- Counterexample to C8: on a conflict-free submission the result carries
no resolved operation at all (`resolvedAction` is absent), contradicting
the claim that a resolved operation is present whether or not a conflict
occurred. -/
theorem addAction_result_counterexample :
    (addAction emptyBoard wC8a).1.success = true
    ∧ (addAction emptyBoard wC8a).1.conflict = false
    ∧ (addAction emptyBoard wC8a).1.resolvedAction = none := by
  decide

/-- C8 as amended: `addAction` always reports `success = true` together with
a boolean conflict flag, and the result carries a resolved operation exactly
when a conflict occurred. -/
theorem addAction_result_spec (state : WhiteboardState) (a : DrawingAction) :
    (addAction state a).1.success = true
    ∧ (addAction state a).1.resolvedAction.isSome = (addAction state a).1.conflict := by
  rw [addAction_eq]
  split
  · exact ⟨rfl, rfl⟩
  · exact ⟨rfl, rfl⟩

/-- Concrete empty-point clear candidate for the C10 witness. -/
def wC10c : DrawingAction :=
  ⟨"wC10c", ActionType.clear, [], "#ffffff", 0, 3000, "user1"⟩

/-- Concrete store for the C10 witness: one draw at t = 1000. -/
def wC10State : WhiteboardState :=
  ⟨"board", "Board", [⟨"wC10a", ActionType.draw, [⟨10, 10⟩], "#000000", 2, 1000, "user1"⟩],
    0, "owner", []⟩

/-- C10: an operation with no points never participates in conflict
detection on either side — a candidate with empty points gets an empty
conflict list, is reported conflict-free, and is stored unchanged; and an
existing operation with empty points is never among any candidate's
conflicts. -/
theorem empty_points_spec :
    (∀ (state : WhiteboardState) (c : DrawingAction), c.points = [] →
      findConflicts c state.actions = []
      ∧ (addAction state c).1.conflict = false
      ∧ (addAction state c).1.resolvedAction = none
      ∧ (addAction state c).2 = applyAction state c)
    ∧ (∀ (actions : List DrawingAction) (c e : DrawingAction), e.points = [] →
        e ∉ findConflicts c actions) := by
  refine ⟨?_, ?_⟩
  · intro state c hc
    have h : findConflicts c state.actions = [] := findConflicts_left_empty state.actions hc
    have e1 : addAction state c = (⟨true, false, none⟩, applyAction state c) := by
      rw [addAction_eq, h]
      simp
    rw [e1]
    exact ⟨h, rfl, rfl, rfl⟩
  · intro actions c e he hmem
    have h2 := (List.mem_filter.mp hmem).2
    rw [hasSpatialConflict_right_empty he] at h2
    simp at h2

/-- Witness for C10 at a concrete input: a clear with no points submitted
against a store holding a draw within the time window is stored unchanged
and conflict-free. -/
theorem empty_points_spec_witness :
    wC10c.points = []
    ∧ (findConflicts wC10c wC10State.actions = []
      ∧ (addAction wC10State wC10c).1.conflict = false
      ∧ (addAction wC10State wC10c).1.resolvedAction = none
      ∧ (addAction wC10State wC10c).2 = applyAction wC10State wC10c) :=
  ⟨by decide, empty_points_spec.1 wC10State wC10c (by decide)⟩

/-- Unfolding of `hAddAction` (the `let` and the branch made explicit). -/
theorem hAddAction_eq (m : HManager) (a : DrawingAction) :
    hAddAction m a =
      if 0 < (findConflicts a (heapGet m.heap m.state.actionsRef)).length then
        (⟨true, true, some (resolveConflicts a (findConflicts a (heapGet m.heap m.state.actionsRef)))⟩,
          hApplyAction m (resolveConflicts a (findConflicts a (heapGet m.heap m.state.actionsRef))))
      else
        (⟨true, false, none⟩, hApplyAction m a) :=
  rfl

/-- The in-place push-and-sort done by `addAction` is observable through any
copy of the store's `actions` reference. -/
theorem heapGet_hAddAction (m : HManager) (a : DrawingAction)
    (h : m.state.actionsRef < m.heap.length) :
    heapGet (hAddAction m a).2.heap m.state.actionsRef =
      sortByTimestamp (heapGet m.heap m.state.actionsRef
        ++ [(hAddAction m a).1.resolvedAction.getD a]) := by
  rw [hAddAction_eq]
  split
  · exact heapGet_set_self m.heap m.state.actionsRef _ h
  · exact heapGet_set_self m.heap m.state.actionsRef _ h

/-- Concrete heap-model manager for C9: one store whose `actions` reference
points at the (initially empty) heap cell 0. -/
def wC9M : HManager :=
  ⟨[[]], ⟨0, 0⟩⟩

/-- Concrete action for C9. -/
def wC9Act : DrawingAction :=
  ⟨"wC9a", ActionType.draw, [⟨10, 10⟩], "#000000", 2, 1000, "user1"⟩

/-- Counterexample to C9: after taking the copy returned by `getState`, an
`addAction` on the store changes the operation sequence seen through that
copy (the spread-copy shares the `actions` array, which `push`/`sort`
mutate in place). -/
theorem getState_isolation_counterexample :
    heapGet (hAddAction wC9M wC9Act).2.heap (hGetState wC9M).actionsRef
      ≠ heapGet wC9M.heap (hGetState wC9M).actionsRef := by
  decide

/-- C9 as amended: the copy returned by `getState` shares its `actions`
array with the store (the object spread copies the reference), so a
subsequent `addAction` — which pushes and sorts that array in place — IS
visible through the previously returned copy; `mergeActions` and
`optimizeActions` instead install a freshly allocated array and leave the
copy's view unchanged; and `restoreFromSnapshot` shares the snapshot's
array, so a subsequent `addAction` on the restored store mutates the array
seen through the snapshot object. -/
theorem getState_aliasing_spec :
    (∀ m : HManager, hGetState m = m.state)
    ∧ (∀ (m : HManager) (a : DrawingAction), m.state.actionsRef < m.heap.length →
        heapGet (hAddAction m a).2.heap (hGetState m).actionsRef =
          sortByTimestamp (heapGet m.heap m.state.actionsRef
            ++ [(hAddAction m a).1.resolvedAction.getD a]))
    ∧ (∀ (m : HManager) (inc : List DrawingAction) (now : Int),
        m.state.actionsRef < m.heap.length →
        heapGet (hMergeActions m inc now).heap (hGetState m).actionsRef =
          heapGet m.heap (hGetState m).actionsRef)
    ∧ (∀ m : HManager, m.state.actionsRef < m.heap.length →
        heapGet (hOptimizeActions m).heap (hGetState m).actionsRef =
          heapGet m.heap (hGetState m).actionsRef)
    ∧ (∀ (m : HManager) (s : HSnapshot) (a : DrawingAction),
        s.state.actionsRef < m.heap.length →
        heapGet (hAddAction (hRestoreFromSnapshot m s) a).2.heap s.state.actionsRef =
          sortByTimestamp (heapGet m.heap s.state.actionsRef
            ++ [(hAddAction (hRestoreFromSnapshot m s) a).1.resolvedAction.getD a])) := by
  refine ⟨fun m => rfl, ?_, ?_, ?_, ?_⟩
  · intro m a h
    exact heapGet_hAddAction m a h
  · intro m inc now h
    exact heapGet_append m.heap m.state.actionsRef _ h
  · intro m h
    exact heapGet_append m.heap m.state.actionsRef _ h
  · intro m s a h
    exact heapGet_hAddAction (hRestoreFromSnapshot m s) a h

/-- Witness for the amended C9 at a concrete input: the store's reference is
valid, and the addAction after `getState` is visible through the copy as
the pushed-and-sorted array. -/
theorem getState_aliasing_spec_witness :
    wC9M.state.actionsRef < wC9M.heap.length
    ∧ heapGet (hAddAction wC9M wC9Act).2.heap (hGetState wC9M).actionsRef =
        sortByTimestamp (heapGet wC9M.heap wC9M.state.actionsRef
          ++ [(hAddAction wC9M wC9Act).1.resolvedAction.getD wC9Act]) :=
  ⟨by decide, getState_aliasing_spec.2.1 wC9M wC9Act (by decide)⟩

end LiveBoard
